import Mathlib

set_option maxHeartbeats 1000000

/- Shallow embedding of the transcription tool (transcribe.py).
   Python strings are modelled as `List Char`; `str.strip()` is modelled as trimming
   the six ASCII whitespace characters; `str.split(sep)` and `str.startswith`,
   substring tests, etc. are modelled by the executable functions below. -/

/-- Characters treated as whitespace by the model of Python `str.strip`. -/
def pyWs (c : Char) : Bool :=
  c = ' ' || c = '\t' || c = '\n' || c = '\r' || c = '\x0b' || c = '\x0c'

/-- Model of Python `str.lstrip()`: drop leading whitespace. -/
def stripLead (s : List Char) : List Char := s.dropWhile pyWs

/-- Model of Python `str.rstrip()`: drop trailing whitespace. -/
def stripTrail (s : List Char) : List Char := (s.reverse.dropWhile pyWs).reverse

/-- Model of Python `str.strip()`. -/
def pyStrip (s : List Char) : List Char := stripTrail (stripLead s)

/-- Model of Python `str.split(sep)` for a one-character separator: e.g.
`"".split(c) = [""]`, `"a\nb".split('\n') = ["a","b"]`. -/
def pySplit (sep : Char) : List Char → List (List Char)
  | [] => [[]]
  | c :: rest =>
    if c = sep then [] :: pySplit sep rest
    else
      match pySplit sep rest with
      | [] => [[c]]
      | l :: ls => (c :: l) :: ls

/-- Model of `output_capture.split('\n')` from `WhisperCppTranscriber.transcribe_file`. -/
def splitLines (s : List Char) : List (List Char) := pySplit '\n' s

/-- Model of `'\n'.join(lines)`. -/
def joinNL : List (List Char) → List Char
  | [] => []
  | [l] => l
  | l :: ls => l ++ '\n' :: joinNL ls

/-- Model of the Python substring test `m in s`. -/
def containsSub (m : List Char) : List Char → Bool
  | [] => m.isEmpty
  | c :: rest => m.isPrefixOf (c :: rest) || containsSub m rest

/-- Model of Python `s.split(m)[0]` for a non-empty separator string `m`: the part of
`s` before the first occurrence of `m` (all of `s` when `m` does not occur). -/
def takeUntilSub (m : List Char) : List Char → List Char
  | [] => []
  | c :: rest => if m.isPrefixOf (c :: rest) then [] else c :: takeUntilSub m rest

/-- The fixed log-line prefixes from `WhisperCppTranscriber.transcribe_file`
(`log_prefixes` in the source). -/
def log_prefixes : List (List Char) :=
  ["whisper_".data, "ggml_".data, "main:".data, "output_".data,
   "log_mel_spectrogram".data, "encode_fallback".data]

/-- The progress-callback marker token (`progress_string_marker` in the source). -/
def progress_string_marker : List Char := "whisper_print_progress_callback".data

/-- Model of Python `s.startswith(tuple_of_prefixes)`. -/
def startsWithAny (ps : List (List Char)) (s : List Char) : Bool :=
  ps.any (fun p => p.isPrefixOf s)

/-- One iteration of the cleaning loop in `WhisperCppTranscriber.transcribe_file`:
discard log lines (whose stripped form starts with a log-line prefix), truncate the
rest at the progress marker, keep only lines that are non-empty after stripping. -/
def cleanLine (line : List Char) : Option (List Char) :=
  if startsWithAny log_prefixes (pyStrip line) then none
  else if (pyStrip (takeUntilSub progress_string_marker line)).isEmpty then none
  else some (takeUntilSub progress_string_marker line)

/-- The `transcript_lines` accumulator of the cleaning loop. -/
def transcriptLines (lines : List (List Char)) : List (List Char) :=
  lines.filterMap cleanLine

/-- Joining and final stripping: `'\n'.join(transcript_lines).strip()`. -/
def normalizeLines (lines : List (List Char)) : List Char :=
  pyStrip (joinNL (transcriptLines lines))

/-- The complete text normalization of `WhisperCppTranscriber.transcribe_file`
(lines 381-400): `output_capture.strip().split('\n')`, the cleaning loop, join, strip. -/
def normalizeText (output_capture : List Char) : List Char :=
  normalizeLines (splitLines (pyStrip output_capture))

/-- Helper: append a character to the last element of a list of lines. -/
def mapLastApp (c : Char) : List (List Char) → List (List Char)
  | [] => []
  | [l] => [l ++ [c]]
  | l :: ls => l :: mapLastApp c ls

/-- Helper: strip trailing whitespace from the last line of a list of lines. -/
def stripEndsTail : List (List Char) → List (List Char)
  | [] => []
  | [l] => [stripTrail l]
  | l :: ls => l :: stripEndsTail ls

/-- Helper: strip leading whitespace from the first line and trailing whitespace from
the last line of a list of lines (the effect of the final strip on joined lines). -/
def stripEnds : List (List Char) → List (List Char)
  | [] => []
  | [l] => [pyStrip l]
  | l :: ls => stripLead l :: stripEndsTail ls

/-- Helper predicate: a line as produced by the cleaning loop — its stripped form does
not start with a log-line prefix, it does not contain the progress marker, and it is
not blank. -/
def goodLine (k : List Char) : Prop :=
  startsWithAny log_prefixes (pyStrip k) = false ∧
    containsSub progress_string_marker k = false ∧ pyStrip k ≠ []

/-- Model of Python `str.lower()` restricted to ASCII letters. -/
def lowerChar (c : Char) : Char :=
  if 65 ≤ c.toNat ∧ c.toNat ≤ 90 then Char.ofNat (c.toNat + 32) else c

/-- Model of `s.lower()`. -/
def lowerStr (s : List Char) : List Char := s.map lowerChar

/-- The language-detection marker scanned for in the raw output. -/
def detected_language_marker : List Char := "detected language:".data

/-- Model of `line.split(':')[-1]`: the text after the last colon (all of the line
when it has no colon). -/
def afterLastColon (l : List Char) : List Char :=
  (l.reverse.takeWhile (fun c => c ≠ ':')).reverse

/-- The language extraction of `WhisperCppTranscriber.transcribe_file` (lines 402-407):
default "unknown"; when the raw output contains "detected language:" case-insensitively,
take the first line containing it and return the stripped text after its last colon. -/
def detectLanguage (output_capture : List Char) : List Char :=
  if containsSub detected_language_marker (lowerStr output_capture) then
    match (splitLines output_capture).find?
        (fun l => containsSub detected_language_marker (lowerStr l)) with
    | some l => pyStrip (afterLastColon l)
    | none => "unknown".data
  else "unknown".data

/-- Modelled from the spec wording of the normalization algorithm, step (a) read
literally as the claim states it: a line is discarded when it literally starts with
one of the fixed log-line prefixes (no whitespace trimming before the test). -/
def specCleanLine (line : List Char) : Option (List Char) :=
  if startsWithAny log_prefixes line then none
  else if (pyStrip (takeUntilSub progress_string_marker line)).isEmpty then none
  else some (takeUntilSub progress_string_marker line)

/-- The spec's normalization algorithm over an ordered sequence of raw output lines,
with step (a) read literally: discard, truncate, keep-if-nonblank, join, trim. -/
def specNormalize (lines : List (List Char)) : List Char :=
  pyStrip (joinNL (lines.filterMap specCleanLine))

/-- The spec's step (a) amended: a line is discarded when its whitespace-trimmed form
starts with one of the fixed log-line prefixes. -/
def specCleanLineStripped (line : List Char) : Option (List Char) :=
  if startsWithAny log_prefixes (pyStrip line) then none
  else if (pyStrip (takeUntilSub progress_string_marker line)).isEmpty then none
  else some (takeUntilSub progress_string_marker line)

/-- The spec's normalization algorithm with the amended step (a). -/
def specNormalizeStripped (lines : List (List Char)) : List Char :=
  pyStrip (joinNL (lines.filterMap specCleanLineStripped))

/-- Observable facts about an input path, as tested by `FileManager.validate_input_files`. -/
structure FileInfo where
  name : List Char
  exists_ : Bool
  is_file : Bool
  suffix : List Char
  readable : Bool
deriving DecidableEq

/-- The validation errors raised by `FileManager.validate_input_files`. -/
inductive InputError
  | fileNotFound (name : List Char)
  | notAFile (name : List Char)
  | unsupportedFormat (name : List Char)
  | notReadable (name : List Char)
deriving DecidableEq

/-- The fixed allow-list `FileManager.SUPPORTED_EXTENSIONS`. -/
def SUPPORTED_EXTENSIONS : List (List Char) :=
  [".mp3".data, ".wav".data, ".m4a".data, ".flac".data, ".ogg".data, ".wma".data]

/-- Model of `FileManager.validate_input_files`: checks each file in order and raises
the first violation (existence, regular file, supported extension lower-cased,
readability); on success returns the validated list in order. -/
def validate_input_files : List FileInfo → Except InputError (List FileInfo)
  | [] => Except.ok []
  | f :: rest =>
    if f.exists_ = false then Except.error (InputError.fileNotFound f.name)
    else if f.is_file = false then Except.error (InputError.notAFile f.name)
    else if SUPPORTED_EXTENSIONS.contains (lowerStr f.suffix) = false then
      Except.error (InputError.unsupportedFormat f.name)
    else if f.readable = false then Except.error (InputError.notReadable f.name)
    else
      match validate_input_files rest with
      | Except.ok vs => Except.ok (f :: vs)
      | Except.error e => Except.error e

/-- A file passes all four validation checks. -/
def validFile (f : FileInfo) : Bool :=
  f.exists_ && f.is_file && SUPPORTED_EXTENSIONS.contains (lowerStr f.suffix) && f.readable

/-- The per-file loop of `TranscriptionService.process_files` (lines 463-492), with the
transcriber abstracted as a function `t`. Returns the outcome (results of the successful
files in input order, or the propagated error) together with the list of files actually
passed to the transcriber, in order. On a failure: in batch mode the file is skipped and
the loop continues; otherwise the error is raised at once and no later file is attempted. -/
def process_files_loop {α ε ρ : Type} (batch_mode : Bool) (t : α → Except ε ρ) :
    List α → Except ε (List ρ) × List α
  | [] => (Except.ok [], [])
  | f :: rest =>
    match t f with
    | Except.ok r =>
      (match (process_files_loop batch_mode t rest).1 with
       | Except.ok rs => Except.ok (r :: rs)
       | Except.error e => Except.error e,
        f :: (process_files_loop batch_mode t rest).2)
    | Except.error e =>
      if batch_mode then
        ((process_files_loop batch_mode t rest).1,
          f :: (process_files_loop batch_mode t rest).2)
      else (Except.error e, [f])

/-- The whole of `TranscriptionService.process_files`: up-front validation of the entire
list (outside the per-file try/except), then the per-file loop. -/
def process_files {ε ρ : Type} (batch_mode : Bool) (t : FileInfo → Except ε ρ)
    (input_files : List FileInfo) : Except (InputError ⊕ ε) (List ρ) × List FileInfo :=
  match validate_input_files input_files with
  | Except.error v => (Except.error (Sum.inl v), [])
  | Except.ok vs =>
    (match (process_files_loop batch_mode t vs).1 with
     | Except.ok rs => Except.ok rs
     | Except.error e => Except.error (Sum.inr e),
      (process_files_loop batch_mode t vs).2)

/-- A filesystem path, modelled as directory components plus a final name. -/
structure PyPath where
  dir : List (List Char)
  name : List Char
deriving DecidableEq

/-- A transcription result as handed to the result writer. -/
structure TResult where
  input_file : PyPath
  output_file : PyPath
  text : List Char
deriving DecidableEq

/-- The per-entry header written by `_save_concatenated_results`:
`f"=== {result['input_file'].name} ===\n"`. -/
def concat_header (name : List Char) : List Char :=
  "=== ".data ++ name ++ " ===\n".data

/-- The divider written between consecutive entries: `'\n' + '='*50 + '\n\n'`. -/
def concat_divider : List Char :=
  '\n' :: (List.replicate 50 '=' ++ "\n\n".data)

/-- The byte content written by `TranscriptionService._save_concatenated_results`:
for each result its header, its text and a newline, with the divider written after
every entry except the last. -/
def save_concatenated_content : List TResult → List Char
  | [] => []
  | [r] => concat_header r.input_file.name ++ r.text ++ ['\n']
  | r :: rest =>
    concat_header r.input_file.name ++ r.text ++ ['\n'] ++ concat_divider ++
      save_concatenated_content rest

/-- Model of `TranscriptionService._save_individual_results`: the list of
(output path, file content) pairs actually written, and the list of input paths that
produced a "no text to save" warning. A result with empty text is warned about and
skipped; otherwise its text plus a trailing newline is written to its output path. -/
def save_individual_results : List TResult → List (PyPath × List Char) × List PyPath
  | [] => ([], [])
  | r :: rest =>
    if r.text.isEmpty then
      ((save_individual_results rest).1, r.input_file :: (save_individual_results rest).2)
    else ((r.output_file, r.text ++ ['\n']) :: (save_individual_results rest).1,
      (save_individual_results rest).2)

/-- Model of `Path(custom_output)`: parse a path string on '/' separators. -/
def parsePath (s : List Char) : PyPath :=
  ⟨(pySplit '/' s).dropLast, (pySplit '/' s).getLastD []⟩

/-- Model of `pathlib.Path.stem`: the final name without its extension (the part after
the last dot, when that dot is neither the first nor the last character). -/
def pyStem (name : List Char) : List Char :=
  let pre := name.reverse.takeWhile (fun c => c ≠ '.')
  if pre.length + 1 < name.length ∧ 0 < pre.length then
    name.take (name.length - 1 - pre.length)
  else name

/-- Model of `FileManager.generate_output_path` (lines 143-162): an explicit (truthy)
custom output wins; otherwise the stem is suffixed with `-<model>` (when the model name
is truthy) and `-timestamps` (when requested) and given the `.txt` extension, in the
input's directory; with no suffixes at all, the input's extension is replaced by `.txt`. -/
def generate_output_path (input_path : PyPath) (custom_output : Option (List Char))
    (model_name : Option (List Char)) (include_timestamps : Bool) : PyPath :=
  if (custom_output.getD []).isEmpty = false then parsePath (custom_output.getD [])
  else
    let stem := pyStem input_path.name
    let suffixes :=
      (match model_name with
       | some m => if m.isEmpty then [] else [m]
       | none => []) ++ (if include_timestamps then ["timestamps".data] else [])
    if suffixes.isEmpty then ⟨input_path.dir, stem ++ ".txt".data⟩
    else ⟨input_path.dir, stem ++ ('-' :: List.intercalate ['-'] suffixes) ++ ".txt".data⟩

/- Infrastructure lemmas about the string model. -/

theorem dropWhile_head_false {α : Type} {p : α → Bool} {l : List α} {c : α} {t : List α}
    (h : l.dropWhile p = c :: t) : p c = false := by
  induction l with
  | nil => simp at h
  | cons a l ih =>
    rw [List.dropWhile_cons] at h
    split at h
    · exact ih h
    · cases h; simp_all

theorem dropWhile_idem {α : Type} (p : α → Bool) (l : List α) :
    (l.dropWhile p).dropWhile p = l.dropWhile p := by
  cases h : l.dropWhile p with
  | nil => rfl
  | cons c t => simp [List.dropWhile_cons, dropWhile_head_false h]

theorem dropWhile_eq_self_of {α : Type} {p : α → Bool} {l : List α}
    (h : ∀ c ∈ l, p c = false) : l.dropWhile p = l := by
  cases l with
  | nil => rfl
  | cons c t => simp [List.dropWhile_cons, h c (List.mem_cons_self c t)]

theorem stripLead_cons_ws {c : Char} {s : List Char} (h : pyWs c = true) :
    stripLead (c :: s) = stripLead s := by
  simp [stripLead, List.dropWhile_cons, h]

theorem stripLead_cons_nws {c : Char} (s : List Char) (h : pyWs c = false) :
    stripLead (c :: s) = c :: s := by
  simp [stripLead, List.dropWhile_cons, h]

theorem stripLead_idem (s : List Char) : stripLead (stripLead s) = stripLead s :=
  dropWhile_idem pyWs s

theorem stripLead_eq_nil_iff {s : List Char} :
    stripLead s = [] ↔ ∀ c ∈ s, pyWs c = true := by
  simp [stripLead, List.dropWhile_eq_nil_iff]

theorem stripLead_append_nil {a : List Char} (b : List Char) (h : stripLead a = []) :
    stripLead (a ++ b) = stripLead b := by
  unfold stripLead at *
  rw [List.dropWhile_append, h]
  simp

theorem stripLead_append_ne {a : List Char} (b : List Char) (h : stripLead a ≠ []) :
    stripLead (a ++ b) = stripLead a ++ b := by
  unfold stripLead at *
  rw [List.dropWhile_append]
  simp [List.isEmpty_iff, h]

theorem stripLead_suf_self (s : List Char) : stripLead s <:+ s :=
  List.dropWhile_suffix pyWs

theorem stripTrail_snoc_ws {c : Char} (s : List Char) (h : pyWs c = true) :
    stripTrail (s ++ [c]) = stripTrail s := by
  simp [stripTrail, List.dropWhile_cons, h]

theorem stripTrail_idem (s : List Char) : stripTrail (stripTrail s) = stripTrail s := by
  simp [stripTrail, dropWhile_idem]

theorem stripTrail_eq_nil_iff {s : List Char} :
    stripTrail s = [] ↔ ∀ c ∈ s, pyWs c = true := by
  constructor
  · intro h c hc
    have h2 : List.dropWhile pyWs s.reverse = [] := by
      have := congrArg List.reverse h
      simpa [stripTrail] using this
    rw [List.dropWhile_eq_nil_iff] at h2
    exact h2 c (by simpa using hc)
  · intro h
    have h2 : List.dropWhile pyWs s.reverse = [] := by
      rw [List.dropWhile_eq_nil_iff]
      intro c hc
      exact h c (by simpa using hc)
    simp [stripTrail, h2]

theorem stripTrail_eq_self {p : List Char} (hw : ∀ c ∈ p, pyWs c = false) :
    stripTrail p = p := by
  have h : List.dropWhile pyWs p.reverse = p.reverse :=
    dropWhile_eq_self_of (fun c hc => hw c (by simpa using hc))
  simp [stripTrail, h]

theorem stripTrail_append (a b : List Char) :
    stripTrail (a ++ b) = if stripTrail b = [] then stripTrail a else a ++ stripTrail b := by
  by_cases h : stripTrail b = []
  · have hb : List.dropWhile pyWs b.reverse = [] := by
      have := congrArg List.reverse h
      simpa [stripTrail] using this
    rw [if_pos h]
    simp [stripTrail, List.reverse_append, List.dropWhile_append, hb]
  · have hb : (List.dropWhile pyWs b.reverse).isEmpty = false := by
      rw [List.isEmpty_eq_false]
      intro hh
      exact h (by simp [stripTrail, hh])
    rw [if_neg h]
    show (List.dropWhile pyWs (a ++ b).reverse).reverse = a ++ stripTrail b
    rw [List.reverse_append, List.dropWhile_append, hb]
    simp [stripTrail]


theorem stripTrail_pre_self (s : List Char) : stripTrail s <+: s := by
  have h := List.dropWhile_suffix (l := s.reverse) pyWs
  have h2 := List.reverse_prefix.mpr h
  simpa [stripTrail] using h2

theorem stripLead_stripTrail_comm (s : List Char) :
    stripLead (stripTrail s) = stripTrail (stripLead s) := by
  by_cases h : stripLead s = []
  · have hs : ∀ c ∈ s, pyWs c = true := stripLead_eq_nil_iff.mp h
    rw [h, stripTrail_eq_nil_iff.mpr hs]
    rfl
  · obtain ⟨c, t, hct⟩ : ∃ c t, stripLead s = c :: t := by
      cases hh : stripLead s with
      | nil => exact absurd hh h
      | cons c t => exact ⟨c, t, rfl⟩
    have hc : pyWs c = false := dropWhile_head_false hct
    have hsplit : s.takeWhile pyWs ++ stripLead s = s :=
      List.takeWhile_append_dropWhile (p := pyWs) (l := s)
    have hwsl : ∀ d ∈ s.takeWhile pyWs, pyWs d = true :=
      fun d hd => List.mem_takeWhile_imp hd
    have hne : stripTrail (stripLead s) ≠ [] := by
      rw [hct]
      intro hh
      rw [stripTrail_eq_nil_iff] at hh
      rw [hh c (List.mem_cons_self c t)] at hc
      cases hc
    have h1 : stripTrail s = s.takeWhile pyWs ++ stripTrail (stripLead s) := by
      conv_lhs => rw [← hsplit]
      rw [stripTrail_append, if_neg hne]
    rw [h1, stripLead_append_nil _ (stripLead_eq_nil_iff.mpr hwsl)]
    obtain ⟨u, hu⟩ := stripTrail_pre_self (stripLead s)
    cases hh : stripTrail (stripLead s) with
    | nil => exact absurd hh hne
    | cons d t' =>
      rw [hh, hct] at hu
      have hdc : d = c := by
        simpa using congrArg (fun l => l.head?) hu
      rw [stripLead_cons_nws _ (hdc ▸ hc)]

theorem pyStrip_idem (s : List Char) : pyStrip (pyStrip s) = pyStrip s := by
  show stripTrail (stripLead (stripTrail (stripLead s))) = stripTrail (stripLead s)
  rw [stripLead_stripTrail_comm, stripLead_idem, stripTrail_idem]

theorem pyStrip_cons_ws {c : Char} (s : List Char) (h : pyWs c = true) :
    pyStrip (c :: s) = pyStrip s := by
  unfold pyStrip
  rw [stripLead_cons_ws h]

theorem pyStrip_snoc_ws {c : Char} (s : List Char) (h : pyWs c = true) :
    pyStrip (s ++ [c]) = pyStrip s := by
  by_cases hs : stripLead s = []
  · have h2 : stripLead (s ++ [c]) = [] := by
      rw [stripLead_eq_nil_iff] at hs ⊢
      intro d hd
      rcases List.mem_append.mp hd with h1 | h1
      · exact hs d h1
      · simp at h1
        rw [h1]
        exact h
    unfold pyStrip
    rw [h2, hs]
  · unfold pyStrip
    rw [stripLead_append_ne _ hs, stripTrail_snoc_ws _ h]

theorem pyStrip_stripLead (s : List Char) : pyStrip (stripLead s) = pyStrip s := by
  unfold pyStrip
  rw [stripLead_idem]

theorem pyStrip_stripTrail (s : List Char) : pyStrip (stripTrail s) = pyStrip s := by
  show stripTrail (stripLead (stripTrail s)) = stripTrail (stripLead s)
  rw [stripLead_stripTrail_comm, stripTrail_idem]

theorem pyStrip_eq_nil_iff {s : List Char} :
    pyStrip s = [] ↔ ∀ c ∈ s, pyWs c = true := by
  unfold pyStrip
  rw [stripTrail_eq_nil_iff]
  constructor
  · intro h c hc
    have hsplit : s.takeWhile pyWs ++ stripLead s = s :=
      List.takeWhile_append_dropWhile (p := pyWs) (l := s)
    rw [← hsplit] at hc
    rcases List.mem_append.mp hc with h1 | h1
    · exact List.mem_takeWhile_imp h1
    · exact h c h1
  · intro h c hc
    exact h c ((stripLead_suf_self s).subset hc)

theorem pre_stripTrail {p s : List Char} (hw : ∀ c ∈ p, pyWs c = false)
    (h : p <+: s) : p <+: stripTrail s := by
  obtain ⟨t, rfl⟩ := h
  rw [stripTrail_append]
  split
  · rw [stripTrail_eq_self hw]
  · exact List.prefix_append p (stripTrail t)

theorem pre_pyStrip_of_pre_stripLead {p s : List Char} (hw : ∀ c ∈ p, pyWs c = false)
    (h : p <+: stripLead s) : p <+: pyStrip s :=
  pre_stripTrail hw h

theorem pre_pyStrip_of_pre {p s : List Char} (hp : p ≠ []) (hw : ∀ c ∈ p, pyWs c = false)
    (h : p <+: s) : p <+: pyStrip s := by
  have hsl : stripLead s = s := by
    cases p with
    | nil => exact absurd rfl hp
    | cons c p' =>
      obtain ⟨t, ht⟩ := h
      rw [← ht, List.cons_append]
      exact stripLead_cons_nws _ (hw c (by simp))
  unfold pyStrip
  rw [hsl]
  exact pre_stripTrail hw h

theorem pre_pyStrip_of_pre_stripTrail {p s : List Char} (hp : p ≠ [])
    (hw : ∀ c ∈ p, pyWs c = false) (h : p <+: stripTrail s) : p <+: pyStrip s := by
  cases p with
  | nil => exact absurd rfl hp
  | cons c p' =>
    obtain ⟨t, ht⟩ := h
    have h2 : pyStrip s = stripTrail s := by
      show stripTrail (stripLead s) = stripTrail s
      rw [← stripLead_stripTrail_comm, ← ht, List.cons_append,
        stripLead_cons_nws _ (hw c (by simp))]
    rw [h2]
    exact ⟨t, ht⟩

theorem pre_pyStrip_mono {p k l : List Char} (hw : ∀ c ∈ p, pyWs c = false)
    (hkl : k <+: l) (hk : pyStrip k ≠ []) (h : p <+: pyStrip k) : p <+: pyStrip l := by
  have h1 : p <+: stripLead k :=
    h.trans (stripTrail_pre_self (stripLead k))
  have hk1 : stripLead k ≠ [] := by
    intro hh
    apply hk
    unfold pyStrip
    rw [hh]
    rfl
  obtain ⟨t, rfl⟩ := hkl
  have h2 : stripLead (k ++ t) = stripLead k ++ t := stripLead_append_ne _ hk1
  have h3 : p <+: stripLead (k ++ t) := by
    rw [h2]
    exact h1.trans (List.prefix_append _ t)
  exact pre_pyStrip_of_pre_stripLead hw h3

theorem containsSub_iff_sub {m s : List Char} : containsSub m s = true ↔ m <:+: s := by
  induction s with
  | nil => simp [containsSub, List.isEmpty_iff, List.infix_nil]
  | cons c rest ih =>
    simp only [containsSub, Bool.or_eq_true, ih, List.infix_cons_iff,
      List.isPrefixOf_iff_prefix]

theorem containsSub_of_sub {m t s : List Char} (hts : t <:+: s)
    (h : containsSub m t = true) : containsSub m s = true := by
  rw [containsSub_iff_sub] at h ⊢
  exact h.trans hts

theorem not_containsSub_of_sub {m t s : List Char} (hts : t <:+: s)
    (h : containsSub m s = false) : containsSub m t = false := by
  cases hc : containsSub m t with
  | false => rfl
  | true => rw [containsSub_of_sub hts hc] at h; cases h

theorem startsWithAny_iff {ps : List (List Char)} {s : List Char} :
    startsWithAny ps s = true ↔ ∃ p ∈ ps, p <+: s := by
  simp [startsWithAny, List.any_eq_true, List.isPrefixOf_iff_prefix]

theorem takeUntilSub_pre_self (m s : List Char) : takeUntilSub m s <+: s := by
  induction s with
  | nil => simp [takeUntilSub]
  | cons c rest ih =>
    rw [takeUntilSub]
    split
    · exact List.nil_prefix
    · exact List.cons_prefix_cons.mpr ⟨rfl, ih⟩

theorem not_containsSub_takeUntilSub {m : List Char} (hm : m ≠ []) (s : List Char) :
    containsSub m (takeUntilSub m s) = false := by
  induction s with
  | nil => simp [takeUntilSub, containsSub, List.isEmpty_iff, hm]
  | cons c rest ih =>
    rw [takeUntilSub]
    split
    · simp [containsSub, List.isEmpty_iff, hm]
    · rename_i hnp
      cases hht : m.isPrefixOf (c :: takeUntilSub m rest) with
      | false => simp [containsSub, hht, ih]
      | true =>
        exfalso
        rw [ List.isPrefixOf_iff_prefix] at hht
        have h2 : m <+: c :: rest :=
          hht.trans (List.cons_prefix_cons.mpr ⟨rfl, takeUntilSub_pre_self m rest⟩)
        rw [←  List.isPrefixOf_iff_prefix] at h2
        exact hnp h2

theorem takeUntilSub_eq_self {m s : List Char} (h : containsSub m s = false) :
    takeUntilSub m s = s := by
  induction s with
  | nil => rfl
  | cons c rest ih =>
    rw [containsSub, Bool.or_eq_false_iff] at h
    rw [takeUntilSub, if_neg (by simp [h.1]), ih h.2]

theorem isPrefixOf_nil_false {m : List Char} (hm : m ≠ []) :
    m.isPrefixOf ([] : List Char) = false := by
  cases m with
  | nil => exact absurd rfl hm
  | cons a m' => rfl

theorem isPrefixOf_snoc_not_mem {m x : List Char} {c : Char} (hc : c ∉ m) :
    m.isPrefixOf (x ++ [c]) = m.isPrefixOf x := by
  induction m generalizing x with
  | nil => simp [List.isPrefixOf]
  | cons a m' ih =>
    cases x with
    | nil =>
      have hac : (a == c) = false := by
        simp only [beq_eq_false_iff_ne, ne_eq]
        intro hh
        exact hc (by simp [hh])
      simp [List.isPrefixOf, hac]
    | cons b x' =>
      simp only [List.cons_append, List.isPrefixOf, List.append_eq]
      rw [ih (fun hh => hc (List.mem_cons_of_mem a hh))]

theorem takeUntilSub_snoc {m l : List Char} {c : Char} (hc : c ∉ m) (hm : m ≠ []) :
    takeUntilSub m (l ++ [c]) =
      if containsSub m l = true then takeUntilSub m l else l ++ [c] := by
  induction l with
  | nil =>
    have h0 : m.isPrefixOf [c] = false := by
      have h1 := isPrefixOf_snoc_not_mem (x := ([] : List Char)) hc
      rw [List.nil_append] at h1
      rw [h1]
      exact isPrefixOf_nil_false hm
    rw [List.nil_append, if_neg (by simp [containsSub, hm])]
    rw [takeUntilSub, if_neg (by rw [h0]; simp)]
    simp [takeUntilSub]
  | cons a l' ih =>
    have hp : m.isPrefixOf (a :: (l' ++ [c])) = m.isPrefixOf (a :: l') := by
      have := isPrefixOf_snoc_not_mem (x := a :: l') (m := m) hc
      simpa using this
    rw [List.cons_append, takeUntilSub, hp]
    cases hpp : m.isPrefixOf (a :: l') with
    | true =>
      rw [if_pos rfl]
      rw [show containsSub m (a :: l') = true by rw [containsSub, hpp]; rfl, if_pos rfl]
      rw [takeUntilSub, if_pos hpp]
    | false =>
      rw [if_neg (by simp)]
      rw [ih]
      rw [show containsSub m (a :: l') = containsSub m l' by rw [containsSub, hpp]; rfl]
      cases hcc : containsSub m l' with
      | true =>
        rw [if_pos rfl, if_pos rfl, takeUntilSub, if_neg (by simp [hpp])]
      | false =>
        rw [if_neg (by simp), if_neg (by simp)]

theorem log_prefixes_ok : ∀ p ∈ log_prefixes, p ≠ [] ∧ ∀ c ∈ p, pyWs c = false := by
  decide

theorem marker_ok :
    progress_string_marker ≠ [] ∧ ∀ c ∈ progress_string_marker, pyWs c = false := by
  decide

theorem pySplit_ne_nil (sep : Char) (s : List Char) : pySplit sep s ≠ [] := by
  cases s with
  | nil => simp [pySplit]
  | cons c rest =>
    rw [pySplit]
    split
    · simp
    · split <;> simp

theorem pySplit_cons_sep (sep : Char) (rest : List Char) :
    pySplit sep (sep :: rest) = [] :: pySplit sep rest := by
  rw [pySplit, if_pos rfl]

theorem pySplit_cons_ne {sep c : Char} (rest : List Char) (h : c ≠ sep) :
    pySplit sep (c :: rest) =
      (c :: (pySplit sep rest).headI) :: (pySplit sep rest).tail := by
  rw [pySplit, if_neg h]
  cases hh : pySplit sep rest with
  | nil => exact absurd hh (pySplit_ne_nil sep rest)
  | cons l ls => rfl

theorem mem_pySplit_not_sep {sep : Char} {s l : List Char}
    (h : l ∈ pySplit sep s) : sep ∉ l := by
  induction s generalizing l with
  | nil =>
    simp [pySplit] at h
    rw [h]
    simp
  | cons c rest ih =>
    by_cases hc : c = sep
    · subst hc
      rw [pySplit_cons_sep] at h
      rcases List.mem_cons.mp h with h1 | h1
      · rw [h1]; simp
      · exact ih h1
    · rw [pySplit_cons_ne rest hc] at h
      rcases List.mem_cons.mp h with h1 | h1
      · subst h1
        intro hmem
        rcases List.mem_cons.mp hmem with h2 | h2
        · exact hc h2.symm
        · have hmem2 : (pySplit sep rest).headI ∈ pySplit sep rest := by
            cases hh : pySplit sep rest with
            | nil => exact absurd hh (pySplit_ne_nil sep rest)
            | cons a as => simp
          exact ih hmem2 h2
      · exact ih (List.mem_of_mem_tail h1)

theorem splitLines_ne_nil (s : List Char) : splitLines s ≠ [] := pySplit_ne_nil '\n' s

theorem splitLines_cons_nl (rest : List Char) :
    splitLines ('\n' :: rest) = [] :: splitLines rest := pySplit_cons_sep '\n' rest

theorem splitLines_cons_ne {c : Char} (rest : List Char) (h : c ≠ '\n') :
    splitLines (c :: rest) =
      (c :: (splitLines rest).headI) :: (splitLines rest).tail := pySplit_cons_ne rest h

theorem mem_splitLines_not_nl {s l : List Char} (h : l ∈ splitLines s) : '\n' ∉ l :=
  mem_pySplit_not_sep h

theorem headI_mem_splitLines (s : List Char) : (splitLines s).headI ∈ splitLines s := by
  cases hh : splitLines s with
  | nil => exact absurd hh (splitLines_ne_nil s)
  | cons a as => simp

theorem joinNL_cons_head {c : Char} (l : List Char) (ls : List (List Char)) :
    joinNL ((c :: l) :: ls) = c :: joinNL (l :: ls) := by
  cases ls with
  | nil => rfl
  | cons a as => rfl

theorem joinNL_splitLines (s : List Char) : joinNL (splitLines s) = s := by
  induction s with
  | nil => rfl
  | cons c rest ih =>
    by_cases hc : c = '\n'
    · subst hc
      rw [splitLines_cons_nl]
      cases hh : splitLines rest with
      | nil => exact absurd hh (splitLines_ne_nil rest)
      | cons a as =>
        rw [hh] at ih
        show joinNL ([] :: a :: as) = '\n' :: rest
        show '\n' :: joinNL (a :: as) = '\n' :: rest
        rw [ih]
    · rw [splitLines_cons_ne rest hc]
      cases hh : splitLines rest with
      | nil => exact absurd hh (splitLines_ne_nil rest)
      | cons a as =>
        rw [hh] at ih
        simp only [List.headI_cons, List.tail_cons]
        rw [joinNL_cons_head, ih]

theorem splitLines_single {l : List Char} (h : '\n' ∉ l) : splitLines l = [l] := by
  induction l with
  | nil => rfl
  | cons c t ih =>
    have hc : c ≠ '\n' := fun hh => h (hh ▸ List.mem_cons_self c t)
    rw [splitLines_cons_ne t hc, ih (fun hh => h (List.mem_cons_of_mem c hh))]
    rfl

theorem splitLines_append_nl {l : List Char} (t : List Char) (h : '\n' ∉ l) :
    splitLines (l ++ '\n' :: t) = l :: splitLines t := by
  induction l with
  | nil => simpa using splitLines_cons_nl t
  | cons c l' ih =>
    have hc : c ≠ '\n' := fun hh => h (hh ▸ List.mem_cons_self c l')
    rw [List.cons_append, splitLines_cons_ne _ hc,
      ih (fun hh => h (List.mem_cons_of_mem c hh))]
    rfl

theorem splitLines_joinNL {ls : List (List Char)} (hne : ls ≠ [])
    (h : ∀ l ∈ ls, '\n' ∉ l) : splitLines (joinNL ls) = ls := by
  induction ls with
  | nil => exact absurd rfl hne
  | cons l ls' ih =>
    cases ls' with
    | nil => exact splitLines_single (h l (by simp))
    | cons a as =>
      show splitLines (l ++ '\n' :: joinNL (a :: as)) = l :: a :: as
      rw [splitLines_append_nl _ (h l (by simp))]
      rw [ih (by simp) (fun x hx => h x (List.mem_cons_of_mem l hx))]

theorem mem_joinNL_sub {l : List Char} {ls : List (List Char)} (h : l ∈ ls) :
    l <:+: joinNL ls := by
  induction ls with
  | nil => simp at h
  | cons a as ih =>
    rcases List.mem_cons.mp h with h1 | h1
    · subst h1
      cases as with
      | nil => exact List.infix_rfl
      | cons b bs =>
        show l <:+: l ++ '\n' :: joinNL (b :: bs)
        exact (List.prefix_append l _).isInfix
    · cases as with
      | nil => simp at h1
      | cons b bs =>
        have h2 : l <:+: joinNL (b :: bs) := ih h1
        show l <:+: a ++ '\n' :: joinNL (b :: bs)
        refine h2.trans ⟨a ++ ['\n'], [], by simp⟩

theorem mem_splitLines_sub {l s : List Char} (h : l ∈ splitLines s) : l <:+: s := by
  have h2 := mem_joinNL_sub h
  rwa [joinNL_splitLines] at h2

theorem stripLead_ne_nil_of_pyStrip {k : List Char} (h : pyStrip k ≠ []) :
    stripLead k ≠ [] := by
  intro hh
  apply h
  rw [pyStrip_eq_nil_iff]
  exact stripLead_eq_nil_iff.mp hh

theorem stripEndsTail_ne_nil {ks : List (List Char)} (h : ks ≠ []) :
    stripEndsTail ks ≠ [] := by
  cases ks with
  | nil => exact absurd rfl h
  | cons k rest =>
    cases rest with
    | nil => simp [stripEndsTail]
    | cons a as => simp [stripEndsTail]

theorem stripTrail_joinNL {ks : List (List Char)} (h : ∀ k ∈ ks, pyStrip k ≠ []) :
    stripTrail (joinNL ks) = joinNL (stripEndsTail ks) := by
  induction ks with
  | nil => rfl
  | cons k rest ih =>
    cases rest with
    | nil => rfl
    | cons a as =>
      have hJ : stripTrail (joinNL (a :: as)) ≠ [] := by
        intro hh
        rw [stripTrail_eq_nil_iff] at hh
        apply h a (by simp)
        rw [pyStrip_eq_nil_iff]
        intro c hc
        exact hh c ((mem_joinNL_sub (show a ∈ a :: as by simp)).subset hc)
      have ih2 := ih (fun x hx => h x (List.mem_cons_of_mem k hx))
      have hnl : stripTrail ('\n' :: joinNL (a :: as)) =
          '\n' :: stripTrail (joinNL (a :: as)) := by
        have h2 := stripTrail_append ['\n'] (joinNL (a :: as))
        rw [if_neg hJ] at h2
        simpa using h2
      have hne2 : stripTrail ('\n' :: joinNL (a :: as)) ≠ [] := by
        rw [hnl]
        simp
      show stripTrail (k ++ '\n' :: joinNL (a :: as)) = joinNL (k :: stripEndsTail (a :: as))
      have happ := stripTrail_append k ('\n' :: joinNL (a :: as))
      rw [if_neg hne2] at happ
      rw [happ, hnl, ih2]
      obtain ⟨b, bs, hb⟩ : ∃ b bs, stripEndsTail (a :: as) = b :: bs := by
        cases hh : stripEndsTail (a :: as) with
        | nil => exact absurd hh (stripEndsTail_ne_nil (by simp))
        | cons b bs => exact ⟨b, bs, rfl⟩
      rw [hb]
      rfl

theorem pyStrip_joinNL {ks : List (List Char)} (h : ∀ k ∈ ks, pyStrip k ≠ []) :
    pyStrip (joinNL ks) = joinNL (stripEnds ks) := by
  cases ks with
  | nil => rfl
  | cons k rest =>
    cases rest with
    | nil => rfl
    | cons a as =>
      have hk : stripLead k ≠ [] := stripLead_ne_nil_of_pyStrip (h k (by simp))
      show pyStrip (k ++ '\n' :: joinNL (a :: as)) =
        joinNL (stripLead k :: stripEndsTail (a :: as))
      unfold pyStrip
      rw [stripLead_append_ne _ hk]
      have hrest : ∀ x ∈ stripLead k :: a :: as, pyStrip x ≠ [] := by
        intro x hx
        rcases List.mem_cons.mp hx with h1 | h1
        · rw [h1, pyStrip_stripLead]
          exact h k (by simp)
        · exact h x (List.mem_cons_of_mem k h1)
      have h2 := stripTrail_joinNL hrest
      show stripTrail (stripLead k ++ '\n' :: joinNL (a :: as)) = _
      rw [show stripLead k ++ '\n' :: joinNL (a :: as) =
        joinNL (stripLead k :: a :: as) from rfl]
      rw [h2]
      rfl

theorem mem_stripEndsTail {ks : List (List Char)} {l : List Char}
    (h : l ∈ stripEndsTail ks) :
    (∃ k ∈ ks, l = k) ∨ ∃ k ∈ ks, l = stripTrail k := by
  induction ks with
  | nil => simp [stripEndsTail] at h
  | cons k rest ih =>
    cases rest with
    | nil =>
      simp [stripEndsTail] at h
      exact Or.inr ⟨k, by simp, h⟩
    | cons a as =>
      rw [show stripEndsTail (k :: a :: as) = k :: stripEndsTail (a :: as) from rfl] at h
      rcases List.mem_cons.mp h with h1 | h1
      · exact Or.inl ⟨k, by simp, h1⟩
      · rcases ih h1 with ⟨x, hx, hl⟩ | ⟨x, hx, hl⟩
        · exact Or.inl ⟨x, List.mem_cons_of_mem k hx, hl⟩
        · exact Or.inr ⟨x, List.mem_cons_of_mem k hx, hl⟩

theorem mem_stripEnds {ks : List (List Char)} {l : List Char} (h : l ∈ stripEnds ks) :
    ∃ k ∈ ks, l = k ∨ l = stripLead k ∨ l = stripTrail k ∨ l = pyStrip k := by
  cases ks with
  | nil => simp [stripEnds] at h
  | cons k rest =>
    cases rest with
    | nil =>
      simp [stripEnds] at h
      exact ⟨k, by simp, Or.inr (Or.inr (Or.inr h))⟩
    | cons a as =>
      rw [show stripEnds (k :: a :: as) =
        stripLead k :: stripEndsTail (a :: as) from rfl] at h
      rcases List.mem_cons.mp h with h1 | h1
      · exact ⟨k, by simp, Or.inr (Or.inl h1)⟩
      · rcases mem_stripEndsTail h1 with ⟨x, hx, hl⟩ | ⟨x, hx, hl⟩
        · exact ⟨x, List.mem_cons_of_mem k hx, Or.inl hl⟩
        · exact ⟨x, List.mem_cons_of_mem k hx, Or.inr (Or.inr (Or.inl hl))⟩

theorem cleanLine_eq_some {line k : List Char} (h : cleanLine line = some k) :
    k = takeUntilSub progress_string_marker line ∧
      startsWithAny log_prefixes (pyStrip line) = false ∧ pyStrip k ≠ [] := by
  unfold cleanLine at h
  split at h
  · cases h
  · rename_i hsw
    split at h
    · cases h
    · rename_i hk
      cases h
      refine ⟨rfl, by simpa using hsw, ?_⟩
      simpa [List.isEmpty_iff] using hk

theorem goodLine_of_cleanLine {line k : List Char} (h : cleanLine line = some k) :
    goodLine k ∧ k <+: line := by
  obtain ⟨hk, hsw, hne⟩ := cleanLine_eq_some h
  have hpre : k <+: line := hk ▸ takeUntilSub_pre_self _ line
  refine ⟨⟨?_, ?_, hne⟩, hpre⟩
  · cases hb : startsWithAny log_prefixes (pyStrip k) with
    | false => rfl
    | true =>
      exfalso
      rcases startsWithAny_iff.mp hb with ⟨p, hp, hppre⟩
      obtain ⟨hpne, hpnw⟩ := log_prefixes_ok p hp
      have h2 : p <+: pyStrip line := pre_pyStrip_mono hpnw hpre hne hppre
      have h3 : startsWithAny log_prefixes (pyStrip line) = true :=
        startsWithAny_iff.mpr ⟨p, hp, h2⟩
      rw [h3] at hsw
      cases hsw
  · rw [hk]
    exact not_containsSub_takeUntilSub marker_ok.1 line

theorem transcriptLines_good {lines : List (List Char)} {k : List Char}
    (h : k ∈ transcriptLines lines) : goodLine k ∧ ∃ l ∈ lines, k <+: l := by
  rw [transcriptLines, List.mem_filterMap] at h
  obtain ⟨l, hl, hcl⟩ := h
  obtain ⟨hg, hpre⟩ := goodLine_of_cleanLine hcl
  exact ⟨hg, l, hl, hpre⟩

theorem goodLine_stripLead {k : List Char} (h : goodLine k) : goodLine (stripLead k) := by
  obtain ⟨h1, h2, h3⟩ := h
  refine ⟨?_, ?_, ?_⟩
  · rw [pyStrip_stripLead]
    exact h1
  · exact not_containsSub_of_sub (stripLead_suf_self k).isInfix h2
  · rw [pyStrip_stripLead]
    exact h3

theorem goodLine_stripTrail {k : List Char} (h : goodLine k) : goodLine (stripTrail k) := by
  obtain ⟨h1, h2, h3⟩ := h
  refine ⟨?_, ?_, ?_⟩
  · rw [pyStrip_stripTrail]
    exact h1
  · exact not_containsSub_of_sub (stripTrail_pre_self k).isInfix h2
  · rw [pyStrip_stripTrail]
    exact h3

theorem goodLine_pyStrip {k : List Char} (h : goodLine k) : goodLine (pyStrip k) :=
  goodLine_stripTrail (goodLine_stripLead h)

theorem goodLine_stripEnds {ks : List (List Char)} (h : ∀ k ∈ ks, goodLine k) :
    ∀ l ∈ stripEnds ks, goodLine l := by
  intro l hl
  obtain ⟨k, hk, hcase⟩ := mem_stripEnds hl
  rcases hcase with h1 | h1 | h1 | h1
  · exact h1 ▸ h k hk
  · exact h1 ▸ goodLine_stripLead (h k hk)
  · exact h1 ▸ goodLine_stripTrail (h k hk)
  · exact h1 ▸ goodLine_pyStrip (h k hk)

theorem not_nl_stripEnds {ks : List (List Char)} (h : ∀ k ∈ ks, '\n' ∉ k) :
    ∀ l ∈ stripEnds ks, '\n' ∉ l := by
  intro l hl
  obtain ⟨k, hk, hcase⟩ := mem_stripEnds hl
  have hsub : l ⊆ k := by
    rcases hcase with h1 | h1 | h1 | h1
    · exact h1 ▸ fun x hx => hx
    · exact h1 ▸ (stripLead_suf_self k).subset
    · exact h1 ▸ (stripTrail_pre_self k).subset
    · exact h1 ▸ fun x hx =>
        (stripLead_suf_self k).subset ((stripTrail_pre_self (stripLead k)).subset hx)
  exact fun hx => h k hk (hsub hx)

theorem splitLines_pyStrip_joinNL {ks : List (List Char)} (hne : ks ≠ [])
    (hgood : ∀ k ∈ ks, pyStrip k ≠ []) (hnl : ∀ k ∈ ks, '\n' ∉ k) :
    splitLines (pyStrip (joinNL ks)) = stripEnds ks := by
  rw [pyStrip_joinNL hgood]
  apply splitLines_joinNL
  · cases ks with
    | nil => exact absurd rfl hne
    | cons k rest =>
      cases rest with
      | nil => simp [stripEnds]
      | cons a as =>
        rw [show stripEnds (k :: a :: as) =
          stripLead k :: stripEndsTail (a :: as) from rfl]
        simp
  · exact not_nl_stripEnds hnl

/-- C1: for every raw process output, every line retained in the normalized transcript
text is free of the configured log-line prefixes and of the progress-marker substring:
no line of the result starts with any of the fixed log prefixes, and no line contains
the progress-callback marker token. -/
theorem c1_normalized_text_lines_clean (raw l : List Char)
    (h : l ∈ splitLines (normalizeText raw)) :
    startsWithAny log_prefixes l = false ∧
      containsSub progress_string_marker l = false := by
  cases hcase : transcriptLines (splitLines (pyStrip raw)) with
  | nil =>
    have h0 : normalizeText raw = [] := by
      rw [normalizeText, normalizeLines, hcase]
      rfl
    rw [h0] at h
    have hl : l = [] := by simpa [splitLines, pySplit] using h
    rw [hl]
    exact ⟨by decide, by decide⟩
  | cons k0 rest =>
    have hgood : ∀ k ∈ transcriptLines (splitLines (pyStrip raw)), goodLine k :=
      fun k hk => (transcriptLines_good hk).1
    have hnl : ∀ k ∈ transcriptLines (splitLines (pyStrip raw)), '\n' ∉ k := by
      intro k hk
      obtain ⟨-, l', hl', hpre⟩ := transcriptLines_good hk
      exact fun hx => mem_splitLines_not_nl hl' (hpre.subset hx)
    have hchar : splitLines (normalizeText raw) =
        stripEnds (transcriptLines (splitLines (pyStrip raw))) := by
      rw [normalizeText, normalizeLines]
      exact splitLines_pyStrip_joinNL (by rw [hcase]; simp)
        (fun k hk => (hgood k hk).2.2) hnl
    rw [hchar] at h
    have hg : goodLine l := goodLine_stripEnds hgood l h
    refine ⟨?_, hg.2.1⟩
    cases hb : startsWithAny log_prefixes l with
    | false => rfl
    | true =>
      exfalso
      rcases startsWithAny_iff.mp hb with ⟨p, hp, hppre⟩
      obtain ⟨hpne, hpnw⟩ := log_prefixes_ok p hp
      have h2 : p <+: pyStrip l := pre_pyStrip_of_pre hpne hpnw hppre
      have h3 := startsWithAny_iff.mpr ⟨p, hp, h2⟩
      rw [hg.1] at h3
      cases h3

/-- Witness for C1 at a concrete raw output. -/
theorem c1_witness :
    "hello".data ∈ splitLines (normalizeText "whisper_init x\n hello\nggml_free".data) ∧
      startsWithAny log_prefixes "hello".data = false ∧
        containsSub progress_string_marker "hello".data = false :=
  ⟨by decide, c1_normalized_text_lines_clean "whisper_init x\n hello\nggml_free".data
    "hello".data (by decide)⟩

theorem cleanLine_of_goodLine {l : List Char} (h : goodLine l) : cleanLine l = some l := by
  obtain ⟨h1, h2, h3⟩ := h
  unfold cleanLine
  rw [takeUntilSub_eq_self h2, h1]
  simp [List.isEmpty_iff, h3]

theorem filterMap_eq_self_of {α : Type} {f : α → Option α} {l : List α}
    (h : ∀ x ∈ l, f x = some x) : l.filterMap f = l := by
  induction l with
  | nil => rfl
  | cons a l ih =>
    simp only [List.filterMap_cons, h a (by simp)]
    rw [ih (fun x hx => h x (List.mem_cons_of_mem a hx))]

theorem normalizeLines_of_good {ls : List (List Char)} (h : ∀ l ∈ ls, goodLine l) :
    normalizeLines ls = pyStrip (joinNL ls) := by
  rw [normalizeLines, transcriptLines,
    filterMap_eq_self_of (fun l hl => cleanLine_of_goodLine (h l hl))]

/-- C4: normalization is idempotent — normalizing the already-normalized transcript
text yields that same text unchanged. -/
theorem c4_normalize_idempotent (raw : List Char) :
    normalizeText (normalizeText raw) = normalizeText raw := by
  cases hcase : transcriptLines (splitLines (pyStrip raw)) with
  | nil =>
    have h0 : normalizeText raw = [] := by
      rw [normalizeText, normalizeLines, hcase]
      rfl
    rw [h0]
    decide
  | cons k0 rest =>
    have hgood : ∀ k ∈ transcriptLines (splitLines (pyStrip raw)), goodLine k :=
      fun k hk => (transcriptLines_good hk).1
    have hnl : ∀ k ∈ transcriptLines (splitLines (pyStrip raw)), '\n' ∉ k := by
      intro k hk
      obtain ⟨-, l', hl', hpre⟩ := transcriptLines_good hk
      exact fun hx => mem_splitLines_not_nl hl' (hpre.subset hx)
    have hchar : splitLines (normalizeText raw) =
        stripEnds (transcriptLines (splitLines (pyStrip raw))) := by
      rw [normalizeText, normalizeLines]
      exact splitLines_pyStrip_joinNL (by rw [hcase]; simp)
        (fun k hk => (hgood k hk).2.2) hnl
    have hstr : pyStrip (normalizeText raw) = normalizeText raw := pyStrip_idem _
    show normalizeLines (splitLines (pyStrip (normalizeText raw))) = normalizeText raw
    rw [hstr, hchar, normalizeLines_of_good (goodLine_stripEnds hgood)]
    rw [← pyStrip_joinNL (fun k hk => (hgood k hk).2.2), pyStrip_idem]
    rfl

theorem cleanLine_nil : cleanLine [] = none := by decide

theorem transcriptLines_cons (a : List Char) (ls : List (List Char)) :
    transcriptLines (a :: ls) =
      match cleanLine a with
      | none => transcriptLines ls
      | some k => k :: transcriptLines ls := by
  rw [transcriptLines, List.filterMap_cons]
  cases cleanLine a <;> rfl

theorem normalizeLines_cons_nil (ls : List (List Char)) :
    normalizeLines ([] :: ls) = normalizeLines ls := by
  rw [normalizeLines, normalizeLines, transcriptLines_cons, cleanLine_nil]

theorem isPrefixOf_cons_of_ne_head {m : List Char} {c : Char} {l : List Char}
    (hm : m ≠ []) (hne : m.headI ≠ c) : m.isPrefixOf (c :: l) = false := by
  cases m with
  | nil => exact absurd rfl hm
  | cons a m' =>
    simp only [List.headI_cons] at hne
    simp [List.isPrefixOf, hne]

theorem marker_head_not_ws {c : Char} (hc : pyWs c = true) :
    progress_string_marker.headI ≠ c := by
  intro hh
  rw [← hh] at hc
  revert hc
  decide

theorem takeUntilSub_marker_cons_ws {c : Char} {l : List Char} (hc : pyWs c = true) :
    takeUntilSub progress_string_marker (c :: l) =
      c :: takeUntilSub progress_string_marker l := by
  rw [takeUntilSub, if_neg (by
    rw [isPrefixOf_cons_of_ne_head marker_ok.1 (marker_head_not_ws hc)]
    simp)]

theorem cleanLine_cons_ws {c : Char} {l : List Char} (hc : pyWs c = true) :
    cleanLine (c :: l) = Option.map (fun x => c :: x) (cleanLine l) := by
  unfold cleanLine
  rw [pyStrip_cons_ws _ hc, takeUntilSub_marker_cons_ws hc, pyStrip_cons_ws _ hc]
  split
  · rfl
  · split
    · rfl
    · rfl

theorem normalizeLines_cons_ws {c : Char} {l : List Char} (ls : List (List Char))
    (hc : pyWs c = true) :
    normalizeLines ((c :: l) :: ls) = normalizeLines (l :: ls) := by
  rw [normalizeLines, normalizeLines, transcriptLines_cons, transcriptLines_cons,
    cleanLine_cons_ws hc]
  cases hcl : cleanLine l with
  | none => rfl
  | some k =>
    show pyStrip (joinNL ((c :: k) :: transcriptLines ls)) =
      pyStrip (joinNL (k :: transcriptLines ls))
    rw [joinNL_cons_head, pyStrip_cons_ws _ hc]

theorem normalizeLines_splitLines_ws_append {w : List Char} (s : List Char)
    (hw : ∀ c ∈ w, pyWs c = true) :
    normalizeLines (splitLines (w ++ s)) = normalizeLines (splitLines s) := by
  induction w with
  | nil => rfl
  | cons c w' ih =>
    have hc : pyWs c = true := hw c (by simp)
    have ih2 := ih (fun d hd => hw d (List.mem_cons_of_mem c hd))
    by_cases hcn : c = '\n'
    · subst hcn
      rw [List.cons_append, splitLines_cons_nl, normalizeLines_cons_nil, ih2]
    · rw [List.cons_append, splitLines_cons_ne _ hcn]
      cases hh : splitLines (w' ++ s) with
      | nil => exact absurd hh (splitLines_ne_nil _)
      | cons a as =>
        simp only [List.headI_cons, List.tail_cons]
        rw [normalizeLines_cons_ws _ hc, ← hh, ih2]

theorem splitLines_snoc (s : List Char) (c : Char) :
    splitLines (s ++ [c]) =
      if c = '\n' then splitLines s ++ [[]] else mapLastApp c (splitLines s) := by
  induction s with
  | nil =>
    by_cases hc : c = '\n'
    · subst hc
      rfl
    · rw [if_neg hc, List.nil_append, splitLines_cons_ne _ hc]
      rfl
  | cons a s' ih =>
    by_cases ha : a = '\n'
    · subst ha
      rw [List.cons_append, splitLines_cons_nl, splitLines_cons_nl, ih]
      by_cases hc : c = '\n'
      · rw [if_pos hc, if_pos hc]
        rfl
      · rw [if_neg hc, if_neg hc]
        cases hh : splitLines s' with
        | nil => exact absurd hh (splitLines_ne_nil _)
        | cons b bs => rfl
    · rw [List.cons_append, splitLines_cons_ne _ ha, splitLines_cons_ne _ ha, ih]
      by_cases hc : c = '\n'
      · rw [if_pos hc, if_pos hc]
        cases hh : splitLines s' with
        | nil => exact absurd hh (splitLines_ne_nil _)
        | cons b bs => rfl
      · rw [if_neg hc, if_neg hc]
        cases hh : splitLines s' with
        | nil => exact absurd hh (splitLines_ne_nil _)
        | cons b bs =>
          cases bs with
          | nil => rfl
          | cons d ds => rfl

theorem joinNL_mapLastApp {ls : List (List Char)} (c : Char) (h : ls ≠ []) :
    joinNL (mapLastApp c ls) = joinNL ls ++ [c] := by
  induction ls with
  | nil => exact absurd rfl h
  | cons a as ih =>
    cases as with
    | nil => rfl
    | cons b bs =>
      obtain ⟨x, xs, hx⟩ : ∃ x xs, mapLastApp c (b :: bs) = x :: xs := by
        cases hh : mapLastApp c (b :: bs) with
        | nil =>
          exfalso
          cases bs <;> simp [mapLastApp] at hh
        | cons x xs => exact ⟨x, xs, rfl⟩
      show joinNL (a :: mapLastApp c (b :: bs)) = (a ++ '\n' :: joinNL (b :: bs)) ++ [c]
      rw [hx]
      show a ++ '\n' :: joinNL (x :: xs) = (a ++ '\n' :: joinNL (b :: bs)) ++ [c]
      rw [← hx, ih (by simp)]
      simp

theorem cleanLine_snoc_ws {l : List Char} {c : Char} (hc : pyWs c = true) :
    cleanLine (l ++ [c]) = cleanLine l ∨
      cleanLine (l ++ [c]) = Option.map (fun x => x ++ [c]) (cleanLine l) := by
  have hcm : c ∉ progress_string_marker := by
    intro hm
    rw [marker_ok.2 c hm] at hc
    cases hc
  by_cases hcon : containsSub progress_string_marker l = true
  · left
    unfold cleanLine
    rw [pyStrip_snoc_ws _ hc, takeUntilSub_snoc hcm marker_ok.1, if_pos hcon]
  · have hcon2 : containsSub progress_string_marker l = false := by
      cases hx : containsSub progress_string_marker l
      · rfl
      · exact absurd hx hcon
    right
    unfold cleanLine
    rw [pyStrip_snoc_ws _ hc, takeUntilSub_snoc hcm marker_ok.1, hcon2,
      if_neg (show ¬(false = true) by simp), takeUntilSub_eq_self hcon2,
      pyStrip_snoc_ws _ hc]
    split
    · rfl
    · split
      · rfl
      · rfl

theorem transcriptLines_mapLastApp {ls : List (List Char)} {c : Char}
    (hc : pyWs c = true) (h : ls ≠ []) :
    transcriptLines (mapLastApp c ls) = transcriptLines ls ∨
      (transcriptLines (mapLastApp c ls) = mapLastApp c (transcriptLines ls) ∧
        transcriptLines ls ≠ []) := by
  induction ls with
  | nil => exact absurd rfl h
  | cons a as ih =>
    cases as with
    | nil =>
      rcases cleanLine_snoc_ws (l := a) hc with h1 | h1
      · left
        show transcriptLines [a ++ [c]] = transcriptLines [a]
        rw [transcriptLines_cons, transcriptLines_cons, h1]
      · cases hcl : cleanLine a with
        | none =>
          left
          show transcriptLines [a ++ [c]] = transcriptLines [a]
          rw [transcriptLines_cons, transcriptLines_cons, h1, hcl]
          rfl
        | some k =>
          right
          refine ⟨?_, ?_⟩
          · show transcriptLines [a ++ [c]] = mapLastApp c (transcriptLines [a])
            rw [transcriptLines_cons, transcriptLines_cons, h1, hcl]
            rfl
          · show transcriptLines [a] ≠ []
            rw [transcriptLines_cons, hcl]
            simp
    | cons b bs =>
      have hmap : mapLastApp c (a :: b :: bs) = a :: mapLastApp c (b :: bs) := rfl
      rcases ih (by simp) with h1 | ⟨h1, h2⟩
      · left
        rw [hmap, transcriptLines_cons, transcriptLines_cons, h1]
      · right
        obtain ⟨x, xs, hx⟩ : ∃ x xs, transcriptLines (b :: bs) = x :: xs := by
          cases hh : transcriptLines (b :: bs) with
          | nil => exact absurd hh h2
          | cons x xs => exact ⟨x, xs, rfl⟩
        refine ⟨?_, ?_⟩
        · rw [hmap, transcriptLines_cons, transcriptLines_cons, h1, hx]
          cases hcl : cleanLine a with
          | none => rfl
          | some k => rfl
        · rw [transcriptLines_cons, hx]
          cases cleanLine a <;> simp

theorem normalizeLines_mapLastApp {ls : List (List Char)} {c : Char}
    (hc : pyWs c = true) : normalizeLines (mapLastApp c ls) = normalizeLines ls := by
  cases ls with
  | nil => rfl
  | cons a as =>
    rcases transcriptLines_mapLastApp hc (show a :: as ≠ [] by simp) with h1 | ⟨h1, h2⟩
    · rw [normalizeLines, normalizeLines, h1]
    · rw [normalizeLines, normalizeLines, h1, joinNL_mapLastApp c h2,
        pyStrip_snoc_ws _ hc]

theorem normalizeLines_splitLines_snoc_ws {s : List Char} {c : Char}
    (hc : pyWs c = true) :
    normalizeLines (splitLines (s ++ [c])) = normalizeLines (splitLines s) := by
  rw [splitLines_snoc]
  by_cases hcn : c = '\n'
  · rw [if_pos hcn]
    rw [normalizeLines, normalizeLines, transcriptLines, transcriptLines,
      List.filterMap_append]
    have h0 : List.filterMap cleanLine [([] : List Char)] = [] := by
      simp [List.filterMap_cons, cleanLine_nil]
    rw [h0, List.append_nil]
  · rw [if_neg hcn]
    exact normalizeLines_mapLastApp hc

theorem normalizeLines_splitLines_append_ws {w : List Char} (s : List Char)
    (hw : ∀ c ∈ w, pyWs c = true) :
    normalizeLines (splitLines (s ++ w)) = normalizeLines (splitLines s) := by
  induction w generalizing s with
  | nil => rw [List.append_nil]
  | cons c w' ih =>
    have hc : pyWs c = true := hw c (by simp)
    have h1 : s ++ c :: w' = (s ++ [c]) ++ w' := by simp
    rw [h1, ih (s ++ [c]) (fun d hd => hw d (List.mem_cons_of_mem c hd)),
      normalizeLines_splitLines_snoc_ws hc]

theorem normalizeText_eq_normalizeLines_splitLines (raw : List Char) :
    normalizeText raw = normalizeLines (splitLines raw) := by
  rw [normalizeText]
  have h1 : normalizeLines (splitLines raw) =
      normalizeLines (splitLines (stripLead raw)) := by
    conv_lhs => rw [← List.takeWhile_append_dropWhile (p := pyWs) (l := raw)]
    exact normalizeLines_splitLines_ws_append _ (fun c hc => List.mem_takeWhile_imp hc)
  have hdec : pyStrip raw ++ ((stripLead raw).reverse.takeWhile pyWs).reverse =
      stripLead raw := by
    unfold pyStrip stripTrail
    rw [← List.reverse_append, List.takeWhile_append_dropWhile]
    simp
  have h2 : normalizeLines (splitLines (stripLead raw)) =
      normalizeLines (splitLines (pyStrip raw)) := by
    conv_lhs => rw [← hdec]
    exact normalizeLines_splitLines_append_ws _
      (fun c hc => List.mem_takeWhile_imp (by simpa using hc))
  rw [h1, h2]

theorem specCleanLineStripped_eq_cleanLine : specCleanLineStripped = cleanLine := rfl

/-- Counterexample to C2 as stated: on the raw output "a\n  whisper_x", whose second
line carries leading whitespace before a log-line prefix, the code discards the line
(it strips the line before the startswith test) while the claim's algorithm — which
discards only lines that literally start with a prefix — keeps it. -/
theorem c2_counterexample :
    normalizeText "a\n  whisper_x".data ≠
        specNormalize (splitLines "a\n  whisper_x".data) ∧
      normalizeText "a\n  whisper_x".data = "a".data ∧
      specNormalize (splitLines "a\n  whisper_x".data) = "a\n  whisper_x".data :=
  ⟨by decide, by decide, by decide⟩

/-- C2 amended: for every raw output, the normalized transcript text equals the result
of applying, to the ordered sequence of the raw output's lines, the algorithm: (a)
discard each line whose whitespace-trimmed form starts with one of the fixed log-line
prefixes; (b) otherwise truncate the line at the first occurrence of the
progress-callback marker; (c) keep the line only if it is non-empty after trimming;
then join the survivors with newlines in original order and trim the final result. -/
theorem c2_amended_normalization_algorithm (raw : List Char) :
    normalizeText raw = specNormalizeStripped (splitLines raw) := by
  rw [normalizeText_eq_normalizeLines_splitLines, specNormalizeStripped,
    specCleanLineStripped_eq_cleanLine]
  rfl

theorem toNat_ofNat_valid {n : Nat} (h : n.isValidChar) : (Char.ofNat n).toNat = n := by
  rw [Char.ofNat, dif_pos h]
  simp [Char.ofNatAux, Char.toNat, UInt32.toNat]

theorem lowerChar_eq_nl_iff {c : Char} : lowerChar c = '\n' ↔ c = '\n' := by
  constructor
  · intro h
    unfold lowerChar at h
    split at h
    · rename_i hc
      exfalso
      have hv : (c.toNat + 32).isValidChar := Or.inl (by omega)
      have h2 := congrArg Char.toNat h
      rw [toNat_ofNat_valid hv] at h2
      have h3 : Char.toNat '\n' = 10 := by decide
      rw [h3] at h2
      omega
    · exact h
  · intro h
    subst h
    decide

theorem splitLines_lowerStr (s : List Char) :
    splitLines (lowerStr s) = (splitLines s).map lowerStr := by
  induction s with
  | nil => rfl
  | cons c rest ih =>
    by_cases hc : c = '\n'
    · subst hc
      have h1 : lowerStr ('\n' :: rest) = '\n' :: lowerStr rest := by
        simp only [lowerStr, List.map_cons]
        rw [show lowerChar '\n' = '\n' from by decide]
      rw [h1, splitLines_cons_nl, splitLines_cons_nl, ih, List.map_cons]
      rfl
    · have hlc : lowerChar c ≠ '\n' := fun hh => hc (lowerChar_eq_nl_iff.mp hh)
      have h1 : lowerStr (c :: rest) = lowerChar c :: lowerStr rest := rfl
      rw [h1, splitLines_cons_ne _ hlc, splitLines_cons_ne _ hc, ih, List.map_cons]
      cases hh : splitLines rest with
      | nil => exact absurd hh (splitLines_ne_nil _)
      | cons a as => rfl

theorem pre_headI_splitLines {m s : List Char} (hnl : '\n' ∉ m) (h : m <+: s) :
    m <+: (splitLines s).headI := by
  induction m generalizing s with
  | nil => exact List.nil_prefix
  | cons a m' ih =>
    obtain ⟨t, ht⟩ := h
    have ha : a ≠ '\n' := fun hh => hnl (hh ▸ List.mem_cons_self a m')
    rw [← ht, List.cons_append, splitLines_cons_ne _ ha]
    simp only [List.headI_cons]
    exact List.cons_prefix_cons.mpr ⟨rfl,
      ih (fun hh => hnl (List.mem_cons_of_mem a hh)) (List.prefix_append m' t)⟩

theorem infix_no_nl_mem_line {m s : List Char} (h : m <:+: s) (hnl : '\n' ∉ m) :
    ∃ l ∈ splitLines s, m <:+: l := by
  induction s with
  | nil =>
    rw [List.infix_nil] at h
    subst h
    exact ⟨[], by simp [splitLines, pySplit], List.infix_rfl⟩
  | cons c rest ih =>
    rcases List.infix_cons_iff.mp h with h1 | h1
    · exact ⟨(splitLines (c :: rest)).headI, headI_mem_splitLines _,
        (pre_headI_splitLines hnl h1).isInfix⟩
    · obtain ⟨l, hl, hml⟩ := ih h1
      by_cases hc : c = '\n'
      · subst hc
        exact ⟨l, by rw [splitLines_cons_nl]; exact List.mem_cons_of_mem _ hl, hml⟩
      · rw [splitLines_cons_ne _ hc]
        cases hh : splitLines rest with
        | nil => exact absurd hh (splitLines_ne_nil _)
        | cons a as =>
          rw [hh] at hl
          rcases List.mem_cons.mp hl with h2 | h2
          · subst h2
            exact ⟨c :: l, by simp, hml.trans ⟨[c], [], by simp⟩⟩
          · exact ⟨l, by simp [h2], hml⟩

theorem containsSub_lower_line {raw : List Char}
    (h : containsSub detected_language_marker (lowerStr raw) = true) :
    ∃ l ∈ splitLines raw,
      containsSub detected_language_marker (lowerStr l) = true := by
  rw [containsSub_iff_sub] at h
  have hnl : '\n' ∉ detected_language_marker := by decide
  obtain ⟨l, hl, hml⟩ := infix_no_nl_mem_line h hnl
  rw [splitLines_lowerStr] at hl
  obtain ⟨l0, hl0, rfl⟩ := List.mem_map.mp hl
  exact ⟨l0, hl0, containsSub_iff_sub.mpr hml⟩

theorem containsSub_lower_raw {raw l : List Char} (hl : l ∈ splitLines raw)
    (h : containsSub detected_language_marker (lowerStr l) = true) :
    containsSub detected_language_marker (lowerStr raw) = true := by
  have hinf : l <:+: raw := mem_splitLines_sub hl
  exact containsSub_of_sub (hinf.map lowerChar) h

/-- C3: for every raw output, if no line contains "detected language:"
case-insensitively then the detected language is the literal "unknown"; and when the
scan finds a line containing it (the first such line), the detected language is the
whitespace-trimmed text after the last colon of that line, case preserved. -/
theorem c3_language_detection (raw : List Char) :
    ((∀ l ∈ splitLines raw,
        containsSub detected_language_marker (lowerStr l) = false) →
      detectLanguage raw = "unknown".data) ∧
    (∀ l, (splitLines raw).find?
        (fun l => containsSub detected_language_marker (lowerStr l)) = some l →
      detectLanguage raw = pyStrip (afterLastColon l)) := by
  constructor
  · intro h
    rw [detectLanguage, if_neg ?hneg]
    case hneg =>
      intro hc
      obtain ⟨l, hl, hcl⟩ := containsSub_lower_line hc
      rw [h l hl] at hcl
      cases hcl
  · intro l hfind
    have hcl : containsSub detected_language_marker (lowerStr l) = true := by
      simpa using List.find?_some hfind
    have hmem : l ∈ splitLines raw := List.mem_of_find?_eq_some hfind
    rw [detectLanguage, if_pos (containsSub_lower_raw hmem hcl), hfind]

/-- Witness for C3 at concrete raw outputs: one with no language marker, one with a
marker line whose language has surrounding whitespace and mixed case. -/
theorem c3_witness :
    detectLanguage "no marker here\nplain text".data = "unknown".data ∧
      detectLanguage "whisper: detected language: French\nhi".data = "French".data :=
  ⟨(c3_language_detection "no marker here\nplain text".data).1 (by decide),
    ((c3_language_detection "whisper: detected language: French\nhi".data).2
      "whisper: detected language: French".data (by decide)).trans (by decide)⟩

/-- C5: in batch mode the per-file loop never raises: every file is attempted in
input order, a failing file is skipped, and the result sequence is exactly the
successful files' results in input order; in particular, a failing middle file among
three with a succeeding third yields exactly the two other results, in order. -/
theorem c5_batch_mode_skips_failures :
    (∀ (α ε ρ : Type) (t : α → Except ε ρ) (files : List α),
      process_files_loop true t files =
        (Except.ok (files.filterMap (fun f => (t f).toOption)), files)) ∧
    process_files_loop true
        (fun n => if n = 2 then Except.error 99 else Except.ok (n * 10)) [1, 2, 3] =
      (Except.ok [10, 30], [1, 2, 3]) := by
  constructor
  · intro α ε ρ t files
    induction files with
    | nil => rfl
    | cons f fs ih =>
      cases ht : t f <;>
        simp [process_files_loop, ht, ih, List.filterMap_cons, Except.toOption]
  · rfl

/-- C6: in non-batch mode the first transcription failure aborts the run at once —
the error is the loop's outcome (zero results) and no file after the failing one is
ever passed to the transcriber. -/
theorem c6_nonbatch_first_failure_aborts {α ε ρ : Type} (t : α → Except ε ρ)
    (pre : List α) (f : α) (post : List α) (e : ε)
    (hpre : ∀ g ∈ pre, ∃ r, t g = Except.ok r) (hf : t f = Except.error e) :
    process_files_loop false t (pre ++ f :: post) = (Except.error e, pre ++ [f]) := by
  induction pre with
  | nil =>
    rw [List.nil_append, process_files_loop, hf]
    rfl
  | cons g gs ih =>
    obtain ⟨r, hr⟩ := hpre g (by simp)
    rw [List.cons_append, process_files_loop, hr,
      ih (fun x hx => hpre x (List.mem_cons_of_mem g hx))]
    rfl

/-- Witness for C6: a failing first file among three yields the raised error, zero
results, and files two and three are never attempted. -/
theorem c6_witness :
    process_files_loop false
        (fun n => if n = 1 then Except.error 7 else Except.ok n) [1, 2, 3] =
      (Except.error 7, [1]) := by
  have h := c6_nonbatch_first_failure_aborts
    (fun n => if n = 1 then Except.error 7 else Except.ok n) [] 1 [2, 3] 7
    (by simp) (by simp)
  simpa using h

theorem validate_error_of_invalid {files : List FileInfo}
    (h : ∃ f ∈ files, validFile f = false) :
    ∃ v, validate_input_files files = Except.error v := by
  induction files with
  | nil => simp at h
  | cons f fs ih =>
    rw [validate_input_files]
    by_cases h1 : f.exists_ = false
    · rw [if_pos h1]
      exact ⟨_, rfl⟩
    · rw [if_neg h1]
      by_cases h2 : f.is_file = false
      · rw [if_pos h2]
        exact ⟨_, rfl⟩
      · rw [if_neg h2]
        by_cases h3 : SUPPORTED_EXTENSIONS.contains (lowerStr f.suffix) = false
        · rw [if_pos h3]
          exact ⟨_, rfl⟩
        · rw [if_neg h3]
          by_cases h4 : f.readable = false
          · rw [if_pos h4]
            exact ⟨_, rfl⟩
          · rw [if_neg h4]
            simp only [Bool.not_eq_false] at h1 h2 h3 h4
            have hfs : ∃ g ∈ fs, validFile g = false := by
              obtain ⟨g, hg, hgv⟩ := h
              rcases List.mem_cons.mp hg with rfl | hg2
              · exfalso
                unfold validFile at hgv
                rw [h1, h2, h3, h4] at hgv
                cases hgv
              · exact ⟨g, hg2, hgv⟩
            obtain ⟨v, hv⟩ := ih hfs
            rw [hv]
            exact ⟨v, rfl⟩

/-- C10: input validation happens up-front over the entire list, outside the per-file
loop: whenever validation raises, the whole run returns that validation error and no
file — valid ones included — is passed to the transcriber, for any batch-mode
setting; and validation does raise as soon as any input file is missing, not a
regular file, of unsupported (lower-cased) extension, or unreadable. -/
theorem c10_validation_up_front {ε ρ : Type} (batch_mode : Bool)
    (t : FileInfo → Except ε ρ) (files : List FileInfo) :
    (∀ v, validate_input_files files = Except.error v →
      process_files batch_mode t files = (Except.error (Sum.inl v), [])) ∧
    ((∃ f ∈ files, validFile f = false) →
      ∃ v, validate_input_files files = Except.error v) := by
  constructor
  · intro v hv
    rw [process_files, hv]
  · exact validate_error_of_invalid

/-- Witness for C10: a batch-mode run over a missing first file and a perfectly valid
second file aborts with the validation error and attempts no transcription at all. -/
theorem c10_witness :
    process_files true (fun _ => (Except.ok 0 : Except Unit Nat))
        [⟨"x.mp3".data, false, true, ".mp3".data, true⟩,
         ⟨"y.mp3".data, true, true, ".mp3".data, true⟩] =
      (Except.error (Sum.inl (InputError.fileNotFound "x.mp3".data)),
        ([] : List FileInfo)) ∧
    ∃ v, validate_input_files
        [⟨"x.mp3".data, false, true, ".mp3".data, true⟩,
         ⟨"y.mp3".data, true, true, ".mp3".data, true⟩] = Except.error v :=
  ⟨(c10_validation_up_front true (fun _ => (Except.ok 0 : Except Unit Nat)) _).1
      (InputError.fileNotFound "x.mp3".data) rfl,
    (c10_validation_up_front true (fun _ => (Except.ok 0 : Except Unit Nat)) _).2
      ⟨⟨"x.mp3".data, false, true, ".mp3".data, true⟩, by simp, rfl⟩⟩

theorem intercalate_cons_cons {α : Type} (sep x y : List α) (zs : List (List α)) :
    List.intercalate sep (x :: y :: zs) =
      x ++ sep ++ List.intercalate sep (y :: zs) := by
  simp [List.intercalate, List.intersperse]

/-- C7: the concatenated output is exactly the per-result entries (header naming the
source file, then the text, then a newline) joined with the fixed divider between
consecutive entries and no divider after the last; in particular, for inputs a.mp3
and b.mp3 with texts "Hello" and "World" the file is header-a, "Hello", divider,
header-b, "World". -/
theorem c7_concatenated_layout :
    (∀ results : List TResult,
      save_concatenated_content results =
        List.intercalate concat_divider
          (results.map (fun r => concat_header r.input_file.name ++ r.text ++ ['\n']))) ∧
    save_concatenated_content
        [⟨⟨[], "a.mp3".data⟩, ⟨[], "out".data⟩, "Hello".data⟩,
         ⟨⟨[], "b.mp3".data⟩, ⟨[], "out".data⟩, "World".data⟩] =
      concat_header "a.mp3".data ++ "Hello\n".data ++ concat_divider ++
        concat_header "b.mp3".data ++ "World\n".data := by
  constructor
  · intro results
    induction results with
    | nil => rfl
    | cons r rest ih =>
      cases rest with
      | nil => simp [save_concatenated_content, List.intercalate, List.intersperse]
      | cons r2 rest2 =>
        rw [show save_concatenated_content (r :: r2 :: rest2) =
          concat_header r.input_file.name ++ r.text ++ ['\n'] ++ concat_divider ++
            save_concatenated_content (r2 :: rest2) from rfl, ih]
        simp only [List.map_cons]
        rw [intercalate_cons_cons]
  · rfl

/-- Counterexample to C8 as stated: in concatenated mode an empty-text result is not
skipped and produces no warning — its header and a blank entry are written to the
combined file, so the output differs from what skipping that file would produce. -/
theorem c8_counterexample :
    save_concatenated_content [⟨⟨[], "a.mp3".data⟩, ⟨[], "out".data⟩, []⟩] =
        concat_header "a.mp3".data ++ ['\n'] ∧
      save_concatenated_content [⟨⟨[], "a.mp3".data⟩, ⟨[], "out".data⟩, []⟩] ≠
        save_concatenated_content [] :=
  ⟨rfl, by decide⟩

/-- C8 amended: in individual mode a result with empty transcript text is not an
error: it is skipped for writing (its output path receives no write) and a warning
naming its input file is recorded, so no empty-content output file is created, and
every file actually written has non-empty content. In concatenated mode, by
contrast, results are written unconditionally, empty text included. -/
theorem c8_individual_empty_skipped (results : List TResult) :
    (save_individual_results results).1 =
      (results.filter (fun r => !r.text.isEmpty)).map
        (fun r => (r.output_file, r.text ++ ['\n'])) ∧
    (save_individual_results results).2 =
      (results.filter (fun r => r.text.isEmpty)).map (fun r => r.input_file) ∧
    ∀ pc ∈ (save_individual_results results).1, pc.2 ≠ [] := by
  induction results with
  | nil => exact ⟨rfl, rfl, by simp [save_individual_results]⟩
  | cons r rest ih =>
    obtain ⟨ih1, ih2, ih3⟩ := ih
    by_cases hr : r.text.isEmpty = true
    · have h1 : save_individual_results (r :: rest) =
          ((save_individual_results rest).1,
            r.input_file :: (save_individual_results rest).2) := by
        rw [save_individual_results, if_pos hr]
      refine ⟨?_, ?_, ?_⟩
      · rw [h1, List.filter_cons]
        simp [hr, ih1]
      · rw [h1, List.filter_cons]
        simp [hr, ih2]
      · rw [h1]
        exact ih3
    · have hr2 : r.text.isEmpty = false := by
        cases hx : r.text.isEmpty
        · rfl
        · exact absurd hx hr
      have h1 : save_individual_results (r :: rest) =
          ((r.output_file, r.text ++ ['\n']) :: (save_individual_results rest).1,
            (save_individual_results rest).2) := by
        rw [save_individual_results, if_neg (by simp [hr2])]
      refine ⟨?_, ?_, ?_⟩
      · rw [h1, List.filter_cons]
        simp [hr2, ih1]
      · rw [h1, List.filter_cons]
        simp [hr2, ih2]
      · rw [h1]
        intro pc hpc
        rcases List.mem_cons.mp hpc with h2 | h2
        · rw [h2]
          simp
        · exact ih3 pc h2

/-- Witness for C8 (amended): with one non-empty and one empty result, exactly the
non-empty one is written (with non-empty content) and the empty one is warned. -/
theorem c8_witness :
    (save_individual_results
        [⟨⟨[], "a.mp3".data⟩, ⟨[], "a.txt".data⟩, "Hi".data⟩,
         ⟨⟨[], "b.mp3".data⟩, ⟨[], "b.txt".data⟩, []⟩]).1 =
      [(⟨[], "a.txt".data⟩, "Hi\n".data)] ∧
    (save_individual_results
        [⟨⟨[], "a.mp3".data⟩, ⟨[], "a.txt".data⟩, "Hi".data⟩,
         ⟨⟨[], "b.mp3".data⟩, ⟨[], "b.txt".data⟩, []⟩]).2 =
      [⟨[], "b.mp3".data⟩] ∧
    "Hi\n".data ≠ ([] : List Char) :=
  ⟨rfl, rfl,
    (c8_individual_empty_skipped
        [⟨⟨[], "a.mp3".data⟩, ⟨[], "a.txt".data⟩, "Hi".data⟩,
         ⟨⟨[], "b.mp3".data⟩, ⟨[], "b.txt".data⟩, []⟩]).2.2
      (⟨[], "a.txt".data⟩, "Hi\n".data) (by decide)⟩

/-- C9: individual-mode output paths — input speech.mp3 with model "base" and
timestamps requested maps to speech-base-timestamps.txt in the same directory; with
no model name, no timestamps and no override it maps to speech.txt; and a non-empty
explicit custom output path overrides the derived name entirely, for any input. -/
theorem c9_output_path_generation (d : List (List Char)) (input : PyPath)
    (c : List Char) (m : Option (List Char)) (ts : Bool) :
    generate_output_path ⟨d, "speech.mp3".data⟩ none (some "base".data) true =
        ⟨d, "speech-base-timestamps.txt".data⟩ ∧
      generate_output_path ⟨d, "speech.mp3".data⟩ none none false =
        ⟨d, "speech.txt".data⟩ ∧
      (c ≠ [] → generate_output_path input (some c) m ts = parsePath c) := by
  refine ⟨rfl, rfl, ?_⟩
  intro hc
  unfold generate_output_path
  rw [show (some c).getD ([] : List Char) = c from rfl,
    if_pos (List.isEmpty_eq_false.mpr hc)]

/-- Witness for C9's override clause at a concrete custom path. -/
theorem c9_witness :
    generate_output_path ⟨[], "speech.mp3".data⟩ (some "out/res.txt".data) none false =
      parsePath "out/res.txt".data :=
  (c9_output_path_generation [] ⟨[], "speech.mp3".data⟩ "out/res.txt".data none
    false).2.2 (by decide)
